import Mathlib

/-!
Verification of the core logic of a Gmail MCP server (src/main.py):
message composition and MIME/base64 encoding, address-header parsing,
query construction, pagination, and label lookup.  Python byte strings
are modelled as `List Nat`, Python text strings as `List Char` where
code-point level behaviour matters.
-/

/-- Byte strings: each element is a byte value (< 256 where it matters). -/
abbrev Bytes := List Nat

/-- Bytes of an ASCII string literal (code points of its characters). -/
def strB (s : String) : Bytes := s.data.map Char.toNat

/-- Splits a list on a separator element; models Python `str.split(sep)`:
the result is never empty and `split "" = [""]`. -/
def splitSep {α : Type} [DecidableEq α] (sep : α) : List α → List (List α)
  | [] => [[]]
  | a :: rest =>
    if a = sep then [] :: splitSep sep rest
    else
      match splitSep sep rest with
      | seg :: segs => (a :: seg) :: segs
      | [] => [[a]]

/-- Joins segments with a separator element; models Python `sep.join`. -/
def joinSep {α : Type} (sep : α) : List (List α) → List α
  | [] => []
  | [seg] => seg
  | seg :: segs => seg ++ sep :: joinSep sep segs

/-- Drops a known leading run from a list, failing when it is not there. -/
def stripPre {α : Type} [DecidableEq α] : List α → List α → Option (List α)
  | [], xs => some xs
  | _ :: _, [] => none
  | p :: ps, x :: xs => if x = p then stripPre ps xs else none

/-- Largest length among a list of lists. -/
def maxLenOf {α : Type} (ls : List (List α)) : Nat :=
  ls.foldr (fun l m => max l.length m) 0

/-- Option-valued traversal of a list. -/
def listMapM {α β : Type} (f : α → Option β) : List α → Option (List β)
  | [] => some []
  | a :: rest => (f a).bind fun b => (listMapM f rest).map (b :: ·)

/-- URL-safe base64 alphabet as byte values (RFC 4648 §5), as used by
Python `base64.urlsafe_b64encode`. -/
def b64AlphaB : Bytes :=
  strB "ABCDEFGHIJKLMNOPQRSTUVWXYZabcdefghijklmnopqrstuvwxyz0123456789-_"

/-- Byte value of the base64 character for a 6-bit index. -/
def b64CharB (i : Nat) : Nat := b64AlphaB.getD i 0

/-- Index of a byte in a byte list. -/
def idxOf : Bytes → Nat → Option Nat
  | [], _ => none
  | a :: rest, t => if a = t then some 0 else (idxOf rest t).map (· + 1)

/-- Numeric 6-bit value of a base64 character byte. -/
def b64ValB (b : Nat) : Option Nat := idxOf b64AlphaB b

/-- URL-safe base64 encoding of a byte string, with `=` (61) padding;
models `base64.urlsafe_b64encode`. -/
def b64eB : Bytes → Bytes
  | [] => []
  | [a] => [b64CharB (a / 4), b64CharB (a % 4 * 16), 61, 61]
  | [a, b] => [b64CharB (a / 4), b64CharB (a % 4 * 16 + b / 16), b64CharB (b % 16 * 4), 61]
  | a :: b :: c :: rest =>
    b64CharB (a / 4) :: b64CharB (a % 4 * 16 + b / 16) ::
    b64CharB (b % 16 * 4 + c / 64) :: b64CharB (c % 64) :: b64eB rest

/-- Decodes the final base64 quadruple, interpreting `=` (61) padding. -/
def b64dLast (w x y z : Nat) : Option Bytes :=
  (b64ValB w).bind fun i => (b64ValB x).bind fun j =>
  if y = 61 ∧ z = 61 then some [i * 4 + j / 16]
  else if z = 61 then
    (b64ValB y).bind fun k => some [i * 4 + j / 16, j % 16 * 16 + k / 4]
  else
    (b64ValB y).bind fun k => (b64ValB z).bind fun l =>
    some [i * 4 + j / 16, j % 16 * 16 + k / 4, k % 4 * 64 + l]

/-- URL-safe base64 decoding, the inverse transform
(`base64.urlsafe_b64decode`). -/
def b64dB : Bytes → Option Bytes
  | [] => some []
  | [w, x, y, z] => b64dLast w x y z
  | w :: x :: y :: z :: rest =>
    (b64ValB w).bind fun i => (b64ValB x).bind fun j =>
    (b64ValB y).bind fun k => (b64ValB z).bind fun l =>
    (b64dB rest).bind fun ds =>
    some ((i * 4 + j / 16) :: (j % 16 * 16 + k / 4) :: (k % 4 * 64 + l) :: ds)
  | _ => none

/-- An attachment part of an outbound message: inferred MIME main/sub type,
transport filename, and raw payload bytes. -/
structure MimePart where
  maintype : Bytes
  subtype : Bytes
  filename : Bytes
  data : Bytes
deriving DecidableEq

/-- An outbound message as assembled by `create_message` /
`create_message_with_attachment`: headers, plain-text body and attachments. -/
structure EmailMsg where
  to_ : Bytes
  from_ : Bytes
  subject_ : Bytes
  body_ : Bytes
  attachments : List MimePart
deriving DecidableEq

/-- The structural content recovered by re-parsing an encoded message:
headers, body text and (filename, payload) attachment pairs. -/
structure ParsedMsg where
  to_ : Bytes
  from_ : Bytes
  subject_ : Bytes
  body_ : Bytes
  attachments : List (Bytes × Bytes)
deriving DecidableEq

/-- Top header lines of the serialized message (To/From/Subject as set by
`create_message`, plus MIME-Version). -/
def headerLines (m : EmailMsg) : List Bytes :=
  [strB "To: " ++ m.to_, strB "From: " ++ m.from_, strB "Subject: " ++ m.subject_,
   strB "MIME-Version: 1.0"]

/-- Lines of the text/plain body part (`EmailMessage.set_content`). -/
def textPartLines (body : Bytes) : List Bytes :=
  strB "Content-Type: text/plain" :: strB "Content-Transfer-Encoding: 7bit" ::
  [] :: splitSep 10 body

/-- Lines of one attachment part (`EmailMessage.add_attachment`): content
type, base64 transfer encoding, disposition with filename, blank, payload
encoded with the text-safe transform. -/
def attPartLines (a : MimePart) : List Bytes :=
  [strB "Content-Type: " ++ a.maintype ++ [47] ++ a.subtype,
   strB "Content-Transfer-Encoding: base64",
   strB "Content-Disposition: attachment; filename=" ++ [34] ++ a.filename ++ [34],
   [], b64eB a.data]

/-- MIME part delimiter line `--boundary`. -/
def delimLine (b : Bytes) : Bytes := strB "--" ++ b

/-- MIME closing delimiter line `--boundary--`. -/
def closeLine (b : Bytes) : Bytes := strB "--" ++ b ++ strB "--"

/-- Leading run of the multipart Content-Type header, up to the opening
quote of the boundary parameter. -/
def multCtPre : Bytes := strB "Content-Type: multipart/mixed; boundary=" ++ [34]

/-- The multipart/mixed Content-Type header line carrying the boundary. -/
def multCtLine (b : Bytes) : Bytes := multCtPre ++ b ++ [34]

/-- Boundary selection: a run of `=` (61) strictly longer than every content
line, so no content line can equal a delimiter line; models the email
library's guarantee that the chosen boundary does not occur in the content. -/
def chooseBoundary (content : List Bytes) : Bytes :=
  List.replicate (maxLenOf content + 1) 61

/-- Part line-blocks of a multipart message: the text part followed by one
block per attachment. -/
def multSegs (bo : Bytes) (atts : List MimePart) : List (List Bytes) :=
  textPartLines bo :: atts.map attPartLines

/-- The boundary chosen for a multipart message, avoiding every content
line by construction. -/
def multB (bo : Bytes) (atts : List MimePart) : Bytes :=
  chooseBoundary (multSegs bo atts).flatten

/-- The serialized message as a list of lines (`EmailMessage.as_bytes` with
`\n` line separation): a single-part shape when there are no attachments and
a multipart/mixed shape otherwise. -/
def msgLines (m : EmailMsg) : List Bytes :=
  match m.attachments with
  | [] =>
    headerLines m ++ strB "Content-Type: text/plain" ::
      strB "Content-Transfer-Encoding: 7bit" :: [] :: splitSep 10 m.body_
  | a :: as =>
    headerLines m ++ multCtLine (multB m.body_ (a :: as)) :: [] ::
      delimLine (multB m.body_ (a :: as)) ::
      (joinSep (delimLine (multB m.body_ (a :: as))) (multSegs m.body_ (a :: as)) ++
        [closeLine (multB m.body_ (a :: as))])

/-- Full serialized message bytes (`EmailMessage.as_bytes`). -/
def serializeMsg (m : EmailMsg) : Bytes := joinSep 10 (msgLines m)

/-- Parses the text/plain part back out of its lines. -/
def parseTextPart (seg : List Bytes) : Option Bytes :=
  match seg with
  | ctL :: cteL :: emptyL :: bodyLines =>
    if ctL = strB "Content-Type: text/plain" ∧
       cteL = strB "Content-Transfer-Encoding: 7bit" ∧ emptyL = [] then
      some (joinSep 10 bodyLines)
    else none
  | _ => none

/-- Parses one attachment part back out of its lines, reversing the
text-safe transform on the payload. -/
def parseAttPart (seg : List Bytes) : Option (Bytes × Bytes) :=
  match seg with
  | [ctL, cteL, dispL, emptyL, dataL] =>
    (stripPre (strB "Content-Type: ") ctL).bind fun _ =>
    if cteL = strB "Content-Transfer-Encoding: base64" ∧ emptyL = [] then
      (stripPre (strB "Content-Disposition: attachment; filename=" ++ [34]) dispL).bind
        fun fnq =>
      if fnq.getLast? = some 34 then
        (b64dB dataL).bind fun d => some (fnq.dropLast, d)
      else none
    else none
  | _ => none

/-- Re-parses serialized message bytes into headers, body and attachments,
accepting both the single-part and the multipart shape. -/
def parseMime (bs : Bytes) : Option ParsedMsg :=
  match splitSep 10 bs with
  | toL :: frL :: suL :: mvL :: ctL :: rest =>
    (stripPre (strB "To: ") toL).bind fun t =>
    (stripPre (strB "From: ") frL).bind fun f =>
    (stripPre (strB "Subject: ") suL).bind fun s =>
    if mvL = strB "MIME-Version: 1.0" then
      if ctL = strB "Content-Type: text/plain" then
        match rest with
        | cteL :: emptyL :: bodyLines =>
          if cteL = strB "Content-Transfer-Encoding: 7bit" ∧ emptyL = [] then
            some ⟨t, f, s, joinSep 10 bodyLines, []⟩
          else none
        | _ => none
      else
        (stripPre multCtPre ctL).bind fun bq =>
        if bq.getLast? = some 34 then
          let b := bq.dropLast
          match rest with
          | emptyL :: dl :: partLines =>
            if emptyL = [] ∧ dl = delimLine b ∧
               partLines.getLast? = some (closeLine b) then
              match splitSep (delimLine b) partLines.dropLast with
              | textSeg :: attSegs =>
                (parseTextPart textSeg).bind fun body =>
                (listMapM parseAttPart attSegs).bind fun atts =>
                some ⟨t, f, s, body, atts⟩
              | [] => none
            else none
          | _ => none
        else none
    else none
  | _ => none

/-- Decoding the encoded artifact: reverse the outer URL-safe base64
transform, then re-parse the MIME structure. -/
def decodeArtifact (raw : Bytes) : Option ParsedMsg := (b64dB raw).bind parseMime

/-- ASCII lowercasing on bytes (extension normalization in
`mimetypes.guess_type`). -/
def lowerB (bs : Bytes) : Bytes := bs.map (fun b => if 65 ≤ b ∧ b ≤ 90 then b + 32 else b)

/-- Extension table modelling `mimetypes.guess_type` for common types;
entries are (extension, main type, sub type). -/
def mimeTable : List (Bytes × Bytes × Bytes) :=
  [(strB "pdf", strB "application", strB "pdf"),
   (strB "txt", strB "text", strB "plain"),
   (strB "jpg", strB "image", strB "jpeg"),
   (strB "jpeg", strB "image", strB "jpeg"),
   (strB "png", strB "image", strB "png"),
   (strB "gif", strB "image", strB "gif"),
   (strB "csv", strB "text", strB "csv"),
   (strB "html", strB "text", strB "html"),
   (strB "json", strB "application", strB "json"),
   (strB "zip", strB "application", strB "zip"),
   (strB "doc", strB "application", strB "msword"),
   (strB "xls", strB "application", strB "vnd.ms-excel"),
   (strB "mp3", strB "audio", strB "mpeg"),
   (strB "mp4", strB "video", strB "mp4")]

/-- Looks up an extension, falling back to application/octet-stream
(the `type_subtype is None` branch of the source). -/
def lookupExt : List (Bytes × Bytes × Bytes) → Bytes → Bytes × Bytes
  | [], _ => (strB "application", strB "octet-stream")
  | (e, ms) :: rest, ext => if e = ext then ms else lookupExt rest ext

/-- MIME type inference from the file path's extension
(`mimetypes.guess_type` followed by `split("/", 1)`). -/
def guessType (path : Bytes) : Bytes × Bytes :=
  let segs := splitSep 46 path
  if 2 ≤ segs.length then lookupExt mimeTable (lowerB ((segs.getLast?).getD []))
  else (strB "application", strB "octet-stream")

/-- Models `os.path.basename`: the run after the last path separator. -/
def basenameB (p : Bytes) : Bytes := ((splitSep 47 p).getLast?).getD []

/-- The attachment loop of `create_message_with_attachment` (lines 119-137):
a path the filesystem cannot resolve is skipped with a diagnostic (second
component), a readable one contributes a part with inferred type, basename
and raw bytes, in input order. -/
def resolveAttachments (fs : Bytes → Option Bytes) : List Bytes → List MimePart × List Bytes
  | [] => ([], [])
  | p :: ps =>
    match fs p with
    | none =>
      let r := resolveAttachments fs ps
      (r.1, p :: r.2)
    | some d =>
      let r := resolveAttachments fs ps
      (⟨(guessType p).1, (guessType p).2, basenameB p, d⟩ :: r.1, r.2)

/-- Models `create_message` (lines 52-62).  A missing (`None`) argument makes
the Python body raise inside its try block (`set_content(None)` and header
assignment of `None` both raise), caught and turned into a `None` return —
modelled as `none`.  Present arguments produce the URL-safe base64 encoding
of the serialized message. -/
def create_message (to_ from_ subject_ body_ : Option Bytes) : Option Bytes :=
  match to_, from_, subject_, body_ with
  | some t, some f, some s, some b => some (b64eB (serializeMsg ⟨t, f, s, b, []⟩))
  | _, _, _, _ => none

/-- Models `create_message_with_attachment` (lines 109-143).  The filesystem
collaborator `fs` maps a path to its bytes when the file exists and is
readable.  A single path (`Sum.inl`) is normalized to a one-element list
before processing (lines 116-117).  The second component models the
`File not found` diagnostics printed for skipped paths, in input order. -/
def create_message_with_attachment (fs : Bytes → Option Bytes)
    (to_ from_ subject_ body_ : Option Bytes) (file_paths : Bytes ⊕ List Bytes) :
    Option Bytes × List Bytes :=
  let paths := match file_paths with | Sum.inl p => [p] | Sum.inr ps => ps
  match to_, from_, subject_, body_ with
  | some t, some f, some s, some b =>
    let r := resolveAttachments fs paths
    (some (b64eB (serializeMsg ⟨t, f, s, b, r.1⟩)), r.2)
  | _, _, _, _ => (none, [])

/-- A byte string with no newline byte (a legal single header line). -/
def noNL (bs : Bytes) : Prop := 10 ∉ bs

/-- All elements are genuine byte values. -/
def bytesOk (bs : Bytes) : Prop := ∀ x ∈ bs, x < 256

/-- Wellformedness of an attachment part: textual fields are single-line
byte strings; the payload is arbitrary bytes. -/
def partOk (a : MimePart) : Prop :=
  noNL a.maintype ∧ noNL a.subtype ∧ noNL a.filename ∧
  bytesOk a.maintype ∧ bytesOk a.subtype ∧ bytesOk a.filename ∧ bytesOk a.data

/-- Wellformedness of an outbound message: headers are single-line byte
strings, the body is arbitrary bytes, attachments are wellformed. -/
def msgOk (m : EmailMsg) : Prop :=
  noNL m.to_ ∧ noNL m.from_ ∧ noNL m.subject_ ∧
  bytesOk m.to_ ∧ bytesOk m.from_ ∧ bytesOk m.subject_ ∧ bytesOk m.body_ ∧
  ∀ a ∈ m.attachments, partOk a

instance (bs : Bytes) : Decidable (noNL bs) :=
  inferInstanceAs (Decidable (10 ∉ bs))

instance (bs : Bytes) : Decidable (bytesOk bs) :=
  inferInstanceAs (Decidable (∀ x ∈ bs, x < 256))

instance (a : MimePart) : Decidable (partOk a) :=
  inferInstanceAs (Decidable (noNL a.maintype ∧ noNL a.subtype ∧ noNL a.filename ∧
    bytesOk a.maintype ∧ bytesOk a.subtype ∧ bytesOk a.filename ∧ bytesOk a.data))

/-- The accumulation loop of `list_messages` (lines 397-403): extend with
the next page, stop when the bound is reached or pages are exhausted, then
truncate to `max_results`. -/
def list_messages_go {α : Type} (k : Nat) : List (List α) → List α → List α
  | [], acc => acc.take k
  | page :: rest, acc =>
    if k ≤ (acc ++ page).length then (acc ++ page).take k
    else list_messages_go k rest (acc ++ page)

/-- Models `list_messages` (lines 389-406) over the sequence of pages the
transport collaborator returns for the query. -/
def list_messages {α : Type} (pages : List (List α)) (k : Nat) : List α :=
  list_messages_go k pages []

/-- Python `\s` for the ASCII range (`str.strip` / regex whitespace). -/
def isPyWS (c : Char) : Bool :=
  c == ' ' || c == '\t' || c == '\n' || c == '\r' || c == '\x0b' || c == '\x0c'

/-- Backtracking matcher for the lazy `.+?@[^>,]+` core of the
`extract_email_address` regex: `acc` holds the (reversed) characters taken
by `.+?` so far; a literal `@` needs at least one preceding character and a
nonempty greedy `[^>,]+` run after it; `.` does not match a newline. -/
def dotPlusLazyGo (acc : List Char) : List Char → Option (List Char)
  | [] => none
  | c :: rest =>
    if c = '@' ∧ acc ≠ [] ∧ rest.takeWhile (fun d => d != '>' && d != ',') ≠ [] then
      some (acc.reverse ++ '@' :: rest.takeWhile (fun d => d != '>' && d != ','))
    else if c = '\n' then none
    else dotPlusLazyGo (c :: acc) rest

/-- The `<?(.+?@[^>,]+)>?` alternative of the regex: a greedy optional `<`
is tried first; on failure the `<` is handed back to `.+?`. -/
def matchEmailPart : List Char → Option (List Char)
  | [] => none
  | c :: rest =>
    if c = '<' then
      match dotPlusLazyGo [] rest with
      | some e => some e
      | none => dotPlusLazyGo [] (c :: rest)
    else dotPlusLazyGo [] (c :: rest)

/-- After a display-name candidate: greedy optional closing quote, one
whitespace (`"?\s` in the regex), then the email alternative. -/
def tryAfterName : List Char → Option (List Char)
  | [] => none
  | c :: rest =>
    if c = '"' then
      match rest with
      | [] => none
      | c2 :: rest2 => if isPyWS c2 then matchEmailPart rest2 else none
    else if isPyWS c then matchEmailPart rest else none

/-- Greedy backtracking over the `([^"]*)` display-name capture: the first
argument is the reversed current candidate, tried longest-first; each
failure hands one character back to the remainder. -/
def tryName : List Char → List Char → Option (List Char × List Char)
  | [], rest => (tryAfterName rest).map (fun e => ([], e))
  | c :: g1rev, rest =>
    (match tryAfterName rest with
     | some e => some ((c :: g1rev).reverse, e)
     | none => tryName g1rev (c :: rest))

/-- One exploration of the optional name group from a position: greedy
`[^"]*` capture (longest first) followed by the rest of the group. -/
def matchNameFrom (s : List Char) : Option (List Char × List Char) :=
  tryName (s.takeWhile (fun c => c != '"')).reverse
    (s.dropWhile (fun c => c != '"'))

/-- The optional name group with its leading greedy `"?`: the
quote-consuming alternative is fully explored before the quote-free one. -/
def matchNameGroup (s : List Char) : Option (List Char × List Char) :=
  match s with
  | c :: r =>
    if c = '"' then
      match matchNameFrom r with
      | some p => some p
      | none => matchNameFrom (c :: r)
    else matchNameFrom (c :: r)
  | [] => matchNameFrom []

/-- Matching of the full `extract_email_address` regex in Python's
backtracking order: the optional name group is tried first, and only if
every alternative fails is the email part matched alone with the name
capture unset. -/
def matchPattern (s : List Char) : Option (Option (List Char) × List Char) :=
  match matchNameGroup s with
  | some (n, e) => some (some n, e)
  | none => (matchEmailPart s).map (fun e => (none, e))

/-- Models `extract_email_address` (lines 1231-1241): empty input and a
failed match both give `(None, None)`; a falsy (empty) name capture is
normalized to `None`. -/
def extract_email_address (s : List Char) : Option (List Char) × Option (List Char) :=
  if s = [] then (none, none)
  else
    match matchPattern s with
    | some (g1, g2) => (if g1 = some [] then none else g1, some g2)
    | none => (none, none)

/-- Python `str.strip()` over the ASCII whitespace range. -/
def pyStrip (s : List Char) : List Char :=
  ((s.dropWhile isPyWS).reverse.dropWhile isPyWS).reverse

/-- The per-field loop of `get_message_recipients_info` (lines 1297-1307):
split the header on commas, strip each entry, extract, and keep an entry
only when an email value was found. -/
def recipients_of_header (header : List Char) : List (Option (List Char) × List Char) :=
  (splitSep ',' header).filterMap fun addr =>
    match extract_email_address (pyStrip addr) with
    | (name, some e) => some (name, e)
    | (_, none) => none

/-- Decimal digits of a number, most significant first (fuelled). -/
def natBytesGo : Nat → Nat → Bytes
  | 0, _ => []
  | fuel + 1, n => if n < 10 then [48 + n] else natBytesGo fuel (n / 10) ++ [48 + n % 10]

/-- Decimal rendering of a number as digit bytes (`strftime` field). -/
def natBytes (n : Nat) : Bytes := natBytesGo (n + 1) n

/-- Two-digit zero-padded rendering (`%m` / `%d`). -/
def pad2 (n : Nat) : Bytes := if n < 10 then 48 :: natBytes n else natBytes n

/-- The fixed `YYYY/MM/DD` date rendering (`strftime("%Y/%m/%d")`). -/
def dateBytes (y m d : Nat) : Bytes :=
  natBytes y ++ [47] ++ pad2 m ++ [47] ++ pad2 d

/-- Query construction of `find_messages_by_date_range` (lines 1201-1210):
`after:`/`before:` clauses from the date range, then one `label:` clause per
requested label id, all space-joined. -/
def find_messages_by_date_range_query (y1 m1 d1 y2 m2 d2 : Nat)
    (label_ids : List Bytes) : Bytes :=
  let q := strB "after:" ++ dateBytes y1 m1 d1 ++ [32] ++
    (strB "before:" ++ dateBytes y2 m2 d2)
  match label_ids with
  | [] => q
  | _ :: _ => q ++ [32] ++ joinSep 32 (label_ids.map (fun l => strB "label:" ++ l))

/-- Query construction of `get_unread_messages` (lines 905-911). -/
def get_unread_messages_query (label_ids : List Bytes) : Bytes :=
  match label_ids with
  | [] => strB "is:unread"
  | _ :: _ =>
    strB "is:unread" ++ [32] ++ joinSep 32 (label_ids.map (fun l => strB "label:" ++ l))

/-- A label record as returned by the labels listing collaborator. -/
structure GmailLabel where
  name : List Char
  id : List Char

/-- ASCII lowercasing of one character (`str.lower`). -/
def asciiLowerChar (c : Char) : Char :=
  if 65 ≤ c.toNat ∧ c.toNat ≤ 90 then Char.ofNat (c.toNat + 32) else c

/-- ASCII lowercasing of a string (`str.lower`). -/
def lowerStr (s : List Char) : List Char := s.map asciiLowerChar

/-- Models `get_label_id_by_name` (lines 1325-1329): scan the listing in
order, return the id of the first case-insensitive name match. -/
def get_label_id_by_name : List GmailLabel → List Char → Option (List Char)
  | [], _ => none
  | l :: rest, q =>
    if lowerStr l.name = lowerStr q then some l.id else get_label_id_by_name rest q

theorem splitSep_ne_nil {α : Type} [DecidableEq α] (sep : α) (l : List α) :
    splitSep sep l ≠ [] := by
  induction l with
  | nil => simp [splitSep]
  | cons a rest ih =>
    simp only [splitSep]
    split
    · simp
    · split
      · simp
      · simp

theorem joinSep_splitSep {α : Type} [DecidableEq α] (sep : α) (l : List α) :
    joinSep sep (splitSep sep l) = l := by
  induction l with
  | nil => rfl
  | cons a rest ih =>
    simp only [splitSep]
    split
    · rename_i h
      subst h
      rcases hs : splitSep a rest with _ | ⟨seg, segs⟩
      · exact absurd hs (splitSep_ne_nil a rest)
      · rw [hs] at ih
        simp only [joinSep]
        rcases segs with _ | ⟨s2, ss⟩
        · simpa [joinSep] using ih
        · simpa [joinSep] using ih
    · rcases hs : splitSep sep rest with _ | ⟨seg, segs⟩
      · exact absurd hs (splitSep_ne_nil sep rest)
      · rw [hs] at ih
        rcases segs with _ | ⟨s2, ss⟩
        · simpa [joinSep] using ih
        · simp only [joinSep] at ih ⊢
          rw [List.cons_append, ih]

theorem not_mem_of_mem_splitSep {α : Type} [DecidableEq α] {sep : α} {l : List α}
    {seg : List α} (h : seg ∈ splitSep sep l) : sep ∉ seg := by
  induction l generalizing seg with
  | nil =>
    simp [splitSep] at h
    subst h; simp
  | cons a rest ih =>
    simp only [splitSep] at h
    split at h
    · rcases List.mem_cons.mp h with rfl | h2
      · simp
      · exact ih h2
    · rename_i hne
      rcases hs : splitSep sep rest with _ | ⟨s1, ss⟩
      · exact absurd hs (splitSep_ne_nil sep rest)
      · rw [hs] at h
        rcases List.mem_cons.mp h with rfl | h2
        · intro hm
          rcases List.mem_cons.mp hm with rfl | hm2
          · exact hne rfl
          · exact ih (hs ▸ List.mem_cons_self s1 ss) hm2
        · exact ih (hs ▸ List.mem_cons_of_mem s1 h2)

theorem mem_of_mem_splitSep {α : Type} [DecidableEq α] {sep : α} {l : List α}
    {seg : List α} {x : α} (h : seg ∈ splitSep sep l) (hx : x ∈ seg) : x ∈ l := by
  induction l generalizing seg with
  | nil =>
    simp [splitSep] at h
    subst h; simp at hx
  | cons a rest ih =>
    simp only [splitSep] at h
    split at h
    · rcases List.mem_cons.mp h with rfl | h2
      · simp at hx
      · exact List.mem_cons_of_mem a (ih h2 hx)
    · rcases hs : splitSep sep rest with _ | ⟨s1, ss⟩
      · exact absurd hs (splitSep_ne_nil sep rest)
      · rw [hs] at h
        rcases List.mem_cons.mp h with rfl | h2
        · rcases List.mem_cons.mp hx with rfl | hx2
          · exact List.mem_cons_self x rest
          · exact List.mem_cons_of_mem a (ih (hs ▸ List.mem_cons_self s1 ss) hx2)
        · exact List.mem_cons_of_mem a (ih (hs ▸ List.mem_cons_of_mem s1 h2) hx)

theorem splitSep_no_sep {α : Type} [DecidableEq α] {sep : α} {l : List α}
    (h : sep ∉ l) : splitSep sep l = [l] := by
  induction l with
  | nil => rfl
  | cons a rest ih =>
    simp only [splitSep]
    have ha : a ≠ sep := fun hh => h (hh ▸ List.mem_cons_self a rest)
    rw [if_neg ha, ih (fun hm => h (List.mem_cons_of_mem a hm))]

theorem splitSep_append_sep {α : Type} [DecidableEq α] {sep : α} {xs : List α}
    (h : sep ∉ xs) (ys : List α) :
    splitSep sep (xs ++ sep :: ys) = xs :: splitSep sep ys := by
  induction xs with
  | nil => simp [splitSep]
  | cons a rest ih =>
    have ha : a ≠ sep := fun hh => h (hh ▸ List.mem_cons_self a rest)
    have hr : sep ∉ rest := fun hm => h (List.mem_cons_of_mem a hm)
    simp only [List.cons_append, splitSep, if_neg ha, List.append_eq, ih hr]

theorem splitSep_joinSep {α : Type} [DecidableEq α] {sep : α} {segs : List (List α)}
    (hne : segs ≠ []) (h : ∀ seg ∈ segs, sep ∉ seg) :
    splitSep sep (joinSep sep segs) = segs := by
  induction segs with
  | nil => exact absurd rfl hne
  | cons seg rest ih =>
    rcases rest with _ | ⟨s2, ss⟩
    · exact splitSep_no_sep (h seg (List.mem_cons_self seg []))
    · have h1 : sep ∉ seg := h seg (List.mem_cons_self seg _)
      simp only [joinSep]
      rw [splitSep_append_sep h1]
      congr 1
      exact ih (by simp) (fun s hs => h s (List.mem_cons_of_mem seg hs))

theorem stripPre_append {α : Type} [DecidableEq α] (pre rest : List α) :
    stripPre pre (pre ++ rest) = some rest := by
  induction pre with
  | nil => rfl
  | cons p ps ih => simp [stripPre, ih]

theorem le_maxLenOf {α : Type} {ls : List (List α)} {l : List α} (h : l ∈ ls) :
    l.length ≤ maxLenOf ls := by
  induction ls with
  | nil => simp at h
  | cons a rest ih =>
    rcases List.mem_cons.mp h with rfl | h2
    · simp [maxLenOf]
    · simp only [maxLenOf, List.foldr_cons]
      exact le_trans (ih h2) (le_max_right _ _)

theorem mem_joinSep {α : Type} {sep : α} {segs : List (List α)} {x : α}
    (h : x ∈ joinSep sep segs) : x = sep ∨ ∃ seg ∈ segs, x ∈ seg := by
  induction segs with
  | nil => simp [joinSep] at h
  | cons seg rest ih =>
    rcases rest with _ | ⟨s2, ss⟩
    · exact Or.inr ⟨seg, List.mem_cons_self seg [], h⟩
    · simp only [joinSep] at h
      rcases List.mem_append.mp h with h1 | h2
      · exact Or.inr ⟨seg, List.mem_cons_self seg _, h1⟩
      · rcases List.mem_cons.mp h2 with rfl | h3
        · exact Or.inl rfl
        · rcases ih h3 with h4 | ⟨s, hs, hxs⟩
          · exact Or.inl h4
          · exact Or.inr ⟨s, List.mem_cons_of_mem seg hs, hxs⟩

theorem getLast?_append_single {α : Type} (xs : List α) (a : α) :
    (xs ++ [a]).getLast? = some a := by
  induction xs with
  | nil => rfl
  | cons b rest ih =>
    rcases rest with _ | ⟨c, cs⟩
    · rfl
    · simpa using ih

theorem dropLast_append_single {α : Type} (xs : List α) (a : α) :
    (xs ++ [a]).dropLast = xs := by
  simp

theorem b64val_b64char_fin : ∀ i : Fin 64, b64ValB (b64CharB i.val) = some i.val := by
  decide

theorem b64val_b64char {i : Nat} (h : i < 64) : b64ValB (b64CharB i) = some i :=
  b64val_b64char_fin ⟨i, h⟩

theorem b64char_ne_61_fin : ∀ i : Fin 64, b64CharB i.val ≠ 61 := by
  decide

theorem b64char_ne_61 {i : Nat} (h : i < 64) : b64CharB i ≠ 61 :=
  b64char_ne_61_fin ⟨i, h⟩

theorem b64_roundtrip : ∀ bs : Bytes, (∀ x ∈ bs, x < 256) → b64dB (b64eB bs) = some bs
  | [], _ => rfl
  | [a], h => by
    have ha : a < 256 := h a (by simp)
    have h1 : b64ValB (b64CharB (a / 4)) = some (a / 4) := b64val_b64char (by omega)
    have h2 : b64ValB (b64CharB (a % 4 * 16)) = some (a % 4 * 16) :=
      b64val_b64char (by omega)
    simp [b64eB, b64dB, b64dLast, h1, h2]
    all_goals omega
  | [a, b], h => by
    have ha : a < 256 := h a (by simp)
    have hb : b < 256 := h b (by simp)
    have h1 : b64ValB (b64CharB (a / 4)) = some (a / 4) := b64val_b64char (by omega)
    have h2 : b64ValB (b64CharB (a % 4 * 16 + b / 16)) = some (a % 4 * 16 + b / 16) :=
      b64val_b64char (by omega)
    have h3 : b64ValB (b64CharB (b % 16 * 4)) = some (b % 16 * 4) :=
      b64val_b64char (by omega)
    have hy : b64CharB (b % 16 * 4) ≠ 61 := b64char_ne_61 (by omega)
    simp [b64eB, b64dB, b64dLast, h1, h2, h3, hy]
    all_goals omega
  | a :: b :: c :: rest, h => by
    have ha : a < 256 := h a (by simp)
    have hb : b < 256 := h b (by simp)
    have hc : c < 256 := h c (by simp)
    have h1 : b64ValB (b64CharB (a / 4)) = some (a / 4) := b64val_b64char (by omega)
    have h2 : b64ValB (b64CharB (a % 4 * 16 + b / 16)) = some (a % 4 * 16 + b / 16) :=
      b64val_b64char (by omega)
    have h3 : b64ValB (b64CharB (b % 16 * 4 + c / 64)) = some (b % 16 * 4 + c / 64) :=
      b64val_b64char (by omega)
    have h4 : b64ValB (b64CharB (c % 64)) = some (c % 64) := b64val_b64char (by omega)
    have hv1 : a / 4 * 4 + (a % 4 * 16 + b / 16) / 16 = a := by omega
    have hv2 : (a % 4 * 16 + b / 16) % 16 * 16 + (b % 16 * 4 + c / 64) / 4 = b := by omega
    have hv3 : (b % 16 * 4 + c / 64) % 4 * 64 + c % 64 = c := by omega
    have hrest := b64_roundtrip rest (fun x hx => h x (by simp [hx]))
    rcases rest with _ | ⟨r1, rs⟩
    · have hy : b64CharB (b % 16 * 4 + c / 64) ≠ 61 := b64char_ne_61 (by omega)
      have hz : b64CharB (c % 64) ≠ 61 := b64char_ne_61 (by omega)
      simp [b64eB, b64dB, b64dLast, h1, h2, h3, h4, hy, hz]
      all_goals omega
    · have hne : b64eB (r1 :: rs) ≠ [] := by
        rcases rs with _ | ⟨r2, rrs⟩
        · simp [b64eB]
        · rcases rrs with _ | ⟨r3, rrrs⟩
          · simp [b64eB]
          · simp [b64eB]
      rcases he : b64eB (r1 :: rs) with _ | ⟨e1, es⟩
      · exact absurd he hne
      · rw [he] at hrest
        have hunf : b64eB (a :: b :: c :: r1 :: rs) =
            b64CharB (a / 4) :: b64CharB (a % 4 * 16 + b / 16) ::
            b64CharB (b % 16 * 4 + c / 64) :: b64CharB (c % 64) :: b64eB (r1 :: rs) := rfl
        rw [hunf, he]
        simp only [b64dB, h1, h2, h3, h4, Option.some_bind, hrest, hv1, hv2, hv3]

theorem list_messages_go_eq {α : Type} (k : Nat) (pages : List (List α)) (acc : List α) :
    list_messages_go k pages acc = (acc ++ pages.flatten).take k := by
  induction pages generalizing acc with
  | nil => simp [list_messages_go]
  | cons page rest ih =>
    simp only [list_messages_go]
    split
    · rename_i h
      rw [List.flatten_cons, ← List.append_assoc]
      exact (List.take_append_of_le_length h).symm
    · rw [ih, List.flatten_cons, List.append_assoc]

/-- C1: for every query result (sequence of pages returned by the transport)
and every bound `k`, `list_messages` returns exactly `min k total` items —
the first `k` of the concatenated pages, in server order — and never more
than `k`. -/
theorem list_messages_pagination {α : Type} (pages : List (List α)) (k : Nat) :
    list_messages pages k = pages.flatten.take k ∧
    (list_messages pages k).length = min k pages.flatten.length ∧
    (list_messages pages k).length ≤ k := by
  have h : list_messages pages k = pages.flatten.take k := by
    have := list_messages_go_eq k pages []
    simpa [list_messages] using this
  refine ⟨h, ?_, ?_⟩
  · rw [h, List.length_take]
  · rw [h, List.length_take]
    exact min_le_left _ _

/-- C9: a single attachment path is normalized to the one-element list
before processing, so both calls agree exactly. -/
theorem create_message_with_attachment_single_norm
    (fs : Bytes → Option Bytes) (to_ from_ subject_ body_ : Option Bytes) (p : Bytes) :
    create_message_with_attachment fs to_ from_ subject_ body_ (Sum.inl p) =
    create_message_with_attachment fs to_ from_ subject_ body_ (Sum.inr [p]) := rfl

/-- C10: label lookup compares names case-insensitively and returns the id
of the first match in listing order, `none` exactly when no label matches. -/
theorem get_label_id_by_name_spec (labels : List GmailLabel) (q : List Char) :
    get_label_id_by_name labels q =
      (labels.find? (fun l => lowerStr l.name == lowerStr q)).map (fun l => l.id) ∧
    (get_label_id_by_name labels q = none ↔
      ∀ l ∈ labels, lowerStr l.name ≠ lowerStr q) := by
  induction labels with
  | nil => simp [get_label_id_by_name]
  | cons l rest ih =>
    by_cases h : lowerStr l.name = lowerStr q
    · rw [List.find?_cons_of_pos _ (by simpa using h)]
      simp [get_label_id_by_name, h]
    · rw [List.find?_cons_of_neg _ (by simpa using h)]
      simp only [get_label_id_by_name, if_neg h, ih.1, true_and]
      rw [← ih.1]
      rw [ih.2]
      constructor
      · intro hall
        intro x hx
        rcases List.mem_cons.mp hx with rfl | hx2
        · exact h
        · exact hall x hx2
      · intro hall x hx
        exact hall x (List.mem_cons_of_mem l hx)

/-- C4: a missing (None) body or required header makes composition return
the explicit failure value rather than an encoded artifact, and a
successful artifact is only returned when body and all required headers are
present. -/
theorem create_message_missing_fields (to_ from_ subject_ body_ : Option Bytes) :
    ((to_ = none ∨ from_ = none ∨ subject_ = none ∨ body_ = none) →
      create_message to_ from_ subject_ body_ = none) ∧
    ((create_message to_ from_ subject_ body_).isSome →
      to_.isSome ∧ from_.isSome ∧ subject_.isSome ∧ body_.isSome) := by
  rcases to_ with _ | t <;> rcases from_ with _ | f <;>
    rcases subject_ with _ | s <;> rcases body_ with _ | b <;>
    simp [create_message]

/-- Witness for C4 at a concrete input: a missing To header yields the
failure value. -/
theorem create_message_missing_fields_witness :
    create_message none (some []) (some []) (some []) = none :=
  (create_message_missing_fields none (some []) (some []) (some [])).1 (Or.inl rfl)

theorem resolveAttachments_spec (fs : Bytes → Option Bytes) (paths : List Bytes) :
    (resolveAttachments fs paths).1 =
      paths.filterMap (fun p => (fs p).map fun d =>
        ⟨(guessType p).1, (guessType p).2, basenameB p, d⟩) ∧
    (resolveAttachments fs paths).2 = paths.filter (fun p => (fs p).isNone) := by
  induction paths with
  | nil => simp [resolveAttachments]
  | cons p ps ih =>
    rcases h : fs p with _ | d
    · simp [resolveAttachments, h, ih.1, ih.2]
    · simp [resolveAttachments, h, ih.1, ih.2]

/-- C5: with a mix of readable and missing attachment paths, composition
succeeds, the encoded message carries exactly one attachment part per
readable file in input order, and each missing path is recorded as a skip
diagnostic instead of aborting. -/
theorem create_message_with_attachment_skips
    (fs : Bytes → Option Bytes) (t f s b : Bytes) (paths : List Bytes) :
    create_message_with_attachment fs (some t) (some f) (some s) (some b)
      (Sum.inr paths) =
    (some (b64eB (serializeMsg ⟨t, f, s, b,
        paths.filterMap (fun p => (fs p).map fun d =>
          ⟨(guessType p).1, (guessType p).2, basenameB p, d⟩)⟩)),
     paths.filter (fun p => (fs p).isNone)) := by
  have h := resolveAttachments_spec fs paths
  simp [create_message_with_attachment, h.1, h.2]

/-- C6: the three reference examples of address parsing: a name with an
angle-bracketed address, a two-entry plain header, and a non-address. -/
theorem address_parsing_examples :
    recipients_of_header ("John Doe <john@example.com>".data) =
      [(some ("John Doe".data), "john@example.com".data)] ∧
    recipients_of_header ("a@b.com, c@d.com".data) =
      [(none, "a@b.com".data), (none, "c@d.com".data)] ∧
    recipients_of_header ("not-an-email".data) = [] := by
  refine ⟨?_, ?_, ?_⟩ <;> decide

theorem dotPlusLazyGo_none : ∀ (s : List Char), '@' ∉ s →
    ∀ (acc : List Char), dotPlusLazyGo acc s = none := by
  intro s
  induction s with
  | nil => intro _ _; rfl
  | cons c rest ih =>
    intro h acc
    have hc : c ≠ '@' := fun hh => h (hh ▸ List.mem_cons_self c rest)
    have hr : '@' ∉ rest := fun hm => h (List.mem_cons_of_mem c hm)
    simp only [dotPlusLazyGo]
    rw [if_neg (fun hh => hc hh.1)]
    by_cases hn : c = '\n'
    · rw [if_pos hn]
    · rw [if_neg hn]
      exact ih hr (c :: acc)

theorem matchEmailPart_none {s : List Char} (h : '@' ∉ s) : matchEmailPart s = none := by
  rcases s with _ | ⟨c, rest⟩
  · rfl
  · have hr : '@' ∉ rest := fun hm => h (List.mem_cons_of_mem c hm)
    simp only [matchEmailPart]
    by_cases hc : c = '<'
    · rw [if_pos hc, dotPlusLazyGo_none rest hr [], dotPlusLazyGo_none (c :: rest) h []]
    · rw [if_neg hc, dotPlusLazyGo_none (c :: rest) h []]

theorem tryAfterName_none {s : List Char} (h : '@' ∉ s) : tryAfterName s = none := by
  rcases s with _ | ⟨c, rest⟩
  · rfl
  · simp only [tryAfterName]
    by_cases hc : c = '"'
    · rw [if_pos hc]
      rcases rest with _ | ⟨c2, rest2⟩
      · rfl
      · have h2 : '@' ∉ rest2 := fun hm =>
          h (List.mem_cons_of_mem c (List.mem_cons_of_mem c2 hm))
        by_cases hw : isPyWS c2
        · simp only [hw, if_true, matchEmailPart_none h2]
        · simp [hw]
    · rw [if_neg hc]
      have h1 : '@' ∉ rest := fun hm => h (List.mem_cons_of_mem c hm)
      by_cases hw : isPyWS c
      · simp only [hw, if_true, matchEmailPart_none h1]
      · simp [hw]

theorem tryName_none : ∀ (g1rev : List Char), '@' ∉ g1rev → ∀ (rest : List Char),
    '@' ∉ rest → tryName g1rev rest = none := by
  intro g1rev
  induction g1rev with
  | nil =>
    intro _ rest hr
    simp [tryName, tryAfterName_none hr]
  | cons c g1 ih =>
    intro hg rest hr
    have hc : c ≠ '@' := fun hh => hg (hh ▸ List.mem_cons_self c g1)
    have hg1 : '@' ∉ g1 := fun hm => hg (List.mem_cons_of_mem c hm)
    have hcr : '@' ∉ (c :: rest) := by
      intro hm
      rcases List.mem_cons.mp hm with hh | hm2
      · exact hc hh.symm
      · exact hr hm2
    simp only [tryName, tryAfterName_none hr]
    exact ih hg1 (c :: rest) hcr

theorem matchNameFrom_none {s : List Char} (h : '@' ∉ s) : matchNameFrom s = none := by
  have htk : '@' ∉ (s.takeWhile (fun c => c != '"')).reverse := by
    intro hm
    exact h ((s.takeWhile_sublist (fun c => c != '"')).mem (List.mem_reverse.mp hm))
  have hdw : '@' ∉ s.dropWhile (fun c => c != '"') := by
    intro hm
    exact h ((s.dropWhile_sublist (fun c => c != '"')).mem hm)
  exact tryName_none _ htk _ hdw

theorem matchNameGroup_none {s : List Char} (h : '@' ∉ s) : matchNameGroup s = none := by
  rcases s with _ | ⟨c, r⟩
  · simp [matchNameGroup, matchNameFrom_none h]
  · have hr : '@' ∉ r := fun hm => h (List.mem_cons_of_mem c hm)
    simp only [matchNameGroup]
    by_cases hc : c = '"'
    · rw [if_pos hc, matchNameFrom_none hr, matchNameFrom_none h]
    · rw [if_neg hc, matchNameFrom_none h]

theorem matchPattern_none {s : List Char} (h : '@' ∉ s) : matchPattern s = none := by
  simp only [matchPattern, matchNameGroup_none h, matchEmailPart_none h]
  rfl

theorem extract_email_address_none {s : List Char} (h : '@' ∉ s) :
    (extract_email_address s).2 = none := by
  by_cases hs : s = []
  · simp [extract_email_address, hs]
  · simp only [extract_email_address, if_neg hs, matchPattern_none h]

theorem dotPlusLazyGo_at_mem : ∀ (s acc e : List Char),
    dotPlusLazyGo acc s = some e → '@' ∈ e := by
  intro s
  induction s with
  | nil => intro acc e h; exact absurd h (by simp [dotPlusLazyGo])
  | cons c rest ih =>
    intro acc e h
    simp only [dotPlusLazyGo] at h
    split at h
    · have he := Option.some.inj h
      rw [← he]
      exact List.mem_append_right _ (List.mem_cons_self _ _)
    · split at h
      · exact absurd h (by simp)
      · exact ih (c :: acc) e h

theorem matchEmailPart_at_mem {s e : List Char} (h : matchEmailPart s = some e) :
    '@' ∈ e := by
  rcases s with _ | ⟨c, rest⟩
  · exact absurd h (by simp [matchEmailPart])
  · simp only [matchEmailPart] at h
    split at h
    · rcases hd : dotPlusLazyGo [] rest with _ | e2
      · rw [hd] at h
        exact dotPlusLazyGo_at_mem _ _ _ h
      · rw [hd] at h
        exact dotPlusLazyGo_at_mem _ _ _ (hd.trans h)
    · exact dotPlusLazyGo_at_mem _ _ _ h

theorem tryAfterName_at_mem {s e : List Char} (h : tryAfterName s = some e) :
    '@' ∈ e := by
  rcases s with _ | ⟨c, rest⟩
  · exact absurd h (by simp [tryAfterName])
  · simp only [tryAfterName] at h
    split at h
    · rcases rest with _ | ⟨c2, rest2⟩
      · have h2 : (none : Option (List Char)) = some e := h
        exact absurd h2 (by simp)
      · have h2 : (if isPyWS c2 = true then matchEmailPart rest2 else none) = some e := h
        by_cases hw : isPyWS c2
        · rw [if_pos hw] at h2
          exact matchEmailPart_at_mem h2
        · rw [if_neg (by simp [hw])] at h2
          exact absurd h2 (by simp)
    · split at h
      · exact matchEmailPart_at_mem h
      · exact absurd h (by simp)

theorem tryName_at_mem : ∀ (g1rev rest : List Char) (n e : List Char),
    tryName g1rev rest = some (n, e) → '@' ∈ e := by
  intro g1rev
  induction g1rev with
  | nil =>
    intro rest n e h
    simp only [tryName] at h
    rcases ha : tryAfterName rest with _ | e2
    · rw [ha] at h; exact absurd h (by simp)
    · rw [ha] at h
      simp only [Option.map_some'] at h
      have := (Prod.mk.injEq _ _ _ _).mp (Option.some.inj h)
      exact this.2 ▸ tryAfterName_at_mem ha
  | cons c g1 ih =>
    intro rest n e h
    simp only [tryName] at h
    split at h
    · rename_i e2 ha
      have := (Prod.mk.injEq _ _ _ _).mp (Option.some.inj h)
      exact this.2 ▸ tryAfterName_at_mem ha
    · exact ih (c :: rest) n e h

theorem matchNameFrom_at_mem {s n e : List Char}
    (h : matchNameFrom s = some (n, e)) : '@' ∈ e :=
  tryName_at_mem _ _ _ _ h

theorem matchNameGroup_at_mem {s n e : List Char}
    (h : matchNameGroup s = some (n, e)) : '@' ∈ e := by
  rcases s with _ | ⟨c, r⟩
  · simp only [matchNameGroup] at h
    exact matchNameFrom_at_mem h
  · simp only [matchNameGroup] at h
    split at h
    · split at h
      · rename_i p hp
        rcases p with ⟨n2, e2⟩
        have hinj := (Prod.mk.injEq _ _ _ _).mp (Option.some.inj h)
        exact hinj.2 ▸ matchNameFrom_at_mem hp
      · exact matchNameFrom_at_mem h
    · exact matchNameFrom_at_mem h

theorem matchPattern_at_mem {s : List Char} {g1 : Option (List Char)} {e : List Char}
    (h : matchPattern s = some (g1, e)) : '@' ∈ e := by
  simp only [matchPattern] at h
  split at h
  · rename_i n2 e2 hp
    have hinj := (Prod.mk.injEq _ _ _ _).mp (Option.some.inj h)
    exact hinj.2 ▸ matchNameGroup_at_mem hp
  · rename_i hp
    rcases hm : matchEmailPart s with _ | e2
    · rw [hm] at h; exact absurd h (by simp)
    · rw [hm] at h
      simp only [Option.map_some'] at h
      have := (Prod.mk.injEq _ _ _ _).mp (Option.some.inj h)
      exact this.2 ▸ matchEmailPart_at_mem hm

theorem extract_email_address_at_mem {s e : List Char}
    (h : (extract_email_address s).2 = some e) : '@' ∈ e := by
  by_cases hs : s = []
  · simp [extract_email_address, hs] at h
  · simp only [extract_email_address, if_neg hs] at h
    rcases hm : matchPattern s with _ | ⟨g1, g2⟩
    · rw [hm] at h; simp at h
    · rw [hm] at h
      simp only at h
      exact (Option.some.inj h) ▸ matchPattern_at_mem hm

theorem mem_pyStrip {s : List Char} {x : Char} (h : x ∈ pyStrip s) : x ∈ s := by
  simp only [pyStrip] at h
  have h1 := List.mem_reverse.mp h
  have h2 := (List.dropWhile_sublist isPyWS).mem h1
  have h3 := List.mem_reverse.mp h2
  exact (List.dropWhile_sublist isPyWS).mem h3

/-- C7: address parsing over arbitrary header text is total in this model;
a comma-separated entry with no `@` contributes no address record, every
returned record's email genuinely contains `@` (nothing fabricated), and a
header with no `@` at all parses to the empty sequence. -/
theorem address_parsing_safety (header : List Char) :
    (∀ entry ∈ splitSep ',' header, (∀ c ∈ entry, c ≠ '@') →
      (extract_email_address (pyStrip entry)).2 = none) ∧
    (∀ p ∈ recipients_of_header header, '@' ∈ p.2) ∧
    ((∀ c ∈ header, c ≠ '@') → recipients_of_header header = []) := by
  refine ⟨?_, ?_, ?_⟩
  · intro entry _ hno
    exact extract_email_address_none (fun hm => hno '@' (mem_pyStrip hm) rfl)
  · intro p hp
    simp only [recipients_of_header] at hp
    rcases List.mem_filterMap.mp hp with ⟨addr, _, hf⟩
    rcases he : extract_email_address (pyStrip addr) with ⟨name, em⟩
    rw [he] at hf
    rcases em with _ | e
    · simp at hf
    · simp only at hf
      rcases Option.some.inj hf with rfl
      have : (extract_email_address (pyStrip addr)).2 = some e := by rw [he]
      exact extract_email_address_at_mem this
  · intro hno
    simp only [recipients_of_header]
    rw [List.filterMap_eq_nil_iff]
    intro addr haddr
    have hsub : '@' ∉ pyStrip addr := fun hm =>
      hno '@' (mem_of_mem_splitSep haddr (mem_pyStrip hm)) rfl
    rcases he : extract_email_address (pyStrip addr) with ⟨name, em⟩
    have h2 : (extract_email_address (pyStrip addr)).2 = none :=
      extract_email_address_none hsub
    rw [he] at h2
    simp only at h2
    subst h2
    rfl

/-- Witness for C7 at a concrete input: a header with no `@` parses to the
empty sequence. -/
theorem address_parsing_safety_witness :
    recipients_of_header ("not-a-valid-header".data) = [] :=
  (address_parsing_safety ("not-a-valid-header".data)).2.2 (by decide)

theorem natBytesGo_digits : ∀ (fuel n : Nat), ∀ x ∈ natBytesGo fuel n,
    48 ≤ x ∧ x ≤ 57 := by
  intro fuel
  induction fuel with
  | zero => intro n x hx; simp [natBytesGo] at hx
  | succ f ih =>
    intro n x hx
    simp only [natBytesGo] at hx
    split at hx
    · rename_i hlt
      rcases List.mem_singleton.mp hx with rfl
      omega
    · rcases List.mem_append.mp hx with h1 | h2
      · exact ih (n / 10) x h1
      · rcases List.mem_singleton.mp h2 with rfl
        omega

theorem not_space_mem_natBytes (n : Nat) : 32 ∉ natBytes n := by
  intro hx
  have := natBytesGo_digits (n + 1) n 32 hx
  omega

theorem not_space_mem_pad2 (n : Nat) : 32 ∉ pad2 n := by
  intro hx
  simp only [pad2] at hx
  split at hx
  · rcases List.mem_cons.mp hx with h1 | h2
    · omega
    · exact not_space_mem_natBytes n h2
  · exact not_space_mem_natBytes n hx

theorem not_space_mem_dateBytes (y m d : Nat) : 32 ∉ dateBytes y m d := by
  intro hx
  simp only [dateBytes, List.mem_append, List.mem_singleton] at hx
  rcases hx with (((h1 | h2) | h3) | h4) | h5
  · exact not_space_mem_natBytes y h1
  · omega
  · exact not_space_mem_pad2 m h3
  · omega
  · exact not_space_mem_pad2 d h5

theorem afterClause_no_space (y m d : Nat) :
    32 ∉ strB "after:" ++ dateBytes y m d := by
  intro hx
  rcases List.mem_append.mp hx with h1 | h2
  · have he : strB "after:" = [97, 102, 116, 101, 114, 58] := rfl
    rw [he] at h1
    simp at h1
  · exact not_space_mem_dateBytes y m d h2

theorem beforeClause_no_space (y m d : Nat) :
    32 ∉ strB "before:" ++ dateBytes y m d := by
  intro hx
  rcases List.mem_append.mp hx with h1 | h2
  · have he : strB "before:" = [98, 101, 102, 111, 114, 101, 58] := rfl
    rw [he] at h1
    simp at h1
  · exact not_space_mem_dateBytes y m d h2

theorem labelClause_no_space {l : Bytes} (hl : 32 ∉ l) : 32 ∉ strB "label:" ++ l := by
  intro hx
  rcases List.mem_append.mp hx with h1 | h2
  · have he : strB "label:" = [108, 97, 98, 101, 108, 58] := rfl
    rw [he] at h1
    simp at h1
  · exact hl h2

theorem afterClause_ne_beforeClause (y1 m1 d1 y2 m2 d2 : Nat) :
    strB "after:" ++ dateBytes y1 m1 d1 ≠ strB "before:" ++ dateBytes y2 m2 d2 := by
  intro h
  have he1 : strB "after:" = [97, 102, 116, 101, 114, 58] := rfl
  have he2 : strB "before:" = [98, 101, 102, 111, 114, 101, 58] := rfl
  rw [he1, he2] at h
  simp at h

theorem labelClause_ne_afterClause (l : Bytes) (y m d : Nat) :
    strB "label:" ++ l ≠ strB "after:" ++ dateBytes y m d := by
  intro h
  have he1 : strB "label:" = [108, 97, 98, 101, 108, 58] := rfl
  have he2 : strB "after:" = [97, 102, 116, 101, 114, 58] := rfl
  rw [he1, he2] at h
  simp at h

theorem labelClause_ne_beforeClause (l : Bytes) (y m d : Nat) :
    strB "label:" ++ l ≠ strB "before:" ++ dateBytes y m d := by
  intro h
  have he1 : strB "label:" = [108, 97, 98, 101, 108, 58] := rfl
  have he2 : strB "before:" = [98, 101, 102, 111, 114, 101, 58] := rfl
  rw [he1, he2] at h
  simp at h

theorem labelClause_ne_unread (l : Bytes) : strB "label:" ++ l ≠ strB "is:unread" := by
  intro h
  have he1 : strB "label:" = [108, 97, 98, 101, 108, 58] := rfl
  have he2 : strB "is:unread" = [105, 115, 58, 117, 110, 114, 101, 97, 100] := rfl
  rw [he1, he2] at h
  simp at h

theorem labelClause_injective :
    Function.Injective (fun l : Bytes => strB "label:" ++ l) := by
  intro a b h
  simpa using h

theorem count_eq_one_of_nodup_mem {l : List Bytes} {a : Bytes}
    (hnd : l.Nodup) (ha : a ∈ l) : l.count a = 1 := by
  induction l with
  | nil => simp at ha
  | cons b t ih =>
    have hbt : b ∉ t := (List.nodup_cons.mp hnd).1
    have hta : t.Nodup := (List.nodup_cons.mp hnd).2
    rcases List.mem_cons.mp ha with rfl | hat
    · rw [List.count_cons_self, List.count_eq_zero_of_not_mem hbt]
    · have hne : a ≠ b := fun hh => hbt (hh ▸ hat)
      rw [List.count_cons_of_ne hne, ih hta hat]

theorem count_map_inj {f : Bytes → Bytes} (hf : Function.Injective f)
    (l : List Bytes) (x : Bytes) : (l.map f).count (f x) = l.count x := by
  induction l with
  | nil => simp
  | cons a t ih =>
    simp only [List.map_cons]
    by_cases hx : x = a
    · subst hx
      rw [List.count_cons_self, List.count_cons_self, ih]
    · have hfx : f x ≠ f a := fun hh => hx (hf hh)
      rw [List.count_cons_of_ne hfx, List.count_cons_of_ne hx, ih]

theorem fq_eq_joinSep (y1 m1 d1 y2 m2 d2 : Nat) (labels : List Bytes) :
    find_messages_by_date_range_query y1 m1 d1 y2 m2 d2 labels =
    joinSep 32 ((strB "after:" ++ dateBytes y1 m1 d1) ::
      (strB "before:" ++ dateBytes y2 m2 d2) ::
      labels.map (fun l => strB "label:" ++ l)) := by
  rcases labels with _ | ⟨l, ls⟩
  · simp [find_messages_by_date_range_query, joinSep]
  · simp only [find_messages_by_date_range_query, joinSep, List.map_cons]
    simp [List.append_assoc]

theorem uq_eq_joinSep (labels : List Bytes) :
    get_unread_messages_query labels =
    joinSep 32 (strB "is:unread" :: labels.map (fun l => strB "label:" ++ l)) := by
  rcases labels with _ | ⟨l, ls⟩
  · simp [get_unread_messages_query, joinSep]
  · simp only [get_unread_messages_query, joinSep, List.map_cons]
    simp [List.append_assoc]

/-- C8: the date-range query splits (on spaces) into exactly one
`after:YYYY/MM/DD` clause, one `before:YYYY/MM/DD` clause and one
`label:id` clause per requested label, each occurring exactly once; the
unread query likewise carries exactly one `label:id` clause per label. -/
theorem query_clauses (y1 m1 d1 y2 m2 d2 : Nat) (labels : List Bytes)
    (hnd : labels.Nodup) (hsp : ∀ l ∈ labels, 32 ∉ l) :
    splitSep 32 (find_messages_by_date_range_query y1 m1 d1 y2 m2 d2 labels) =
      (strB "after:" ++ dateBytes y1 m1 d1) ::
      (strB "before:" ++ dateBytes y2 m2 d2) ::
      labels.map (fun l => strB "label:" ++ l) ∧
    (splitSep 32 (find_messages_by_date_range_query y1 m1 d1 y2 m2 d2 labels)).count
      (strB "after:" ++ dateBytes y1 m1 d1) = 1 ∧
    (splitSep 32 (find_messages_by_date_range_query y1 m1 d1 y2 m2 d2 labels)).count
      (strB "before:" ++ dateBytes y2 m2 d2) = 1 ∧
    (∀ l ∈ labels,
      (splitSep 32 (find_messages_by_date_range_query y1 m1 d1 y2 m2 d2 labels)).count
        (strB "label:" ++ l) = 1) ∧
    splitSep 32 (get_unread_messages_query labels) =
      strB "is:unread" :: labels.map (fun l => strB "label:" ++ l) ∧
    (∀ l ∈ labels,
      (splitSep 32 (get_unread_messages_query labels)).count (strB "label:" ++ l) = 1) := by
  have hmapn : ∀ x ∈ labels.map (fun l => strB "label:" ++ l), 32 ∉ x := by
    intro x hx
    rcases List.mem_map.mp hx with ⟨l, hl, rfl⟩
    exact labelClause_no_space (hsp l hl)
  have hsplit : splitSep 32 (find_messages_by_date_range_query y1 m1 d1 y2 m2 d2 labels) =
      (strB "after:" ++ dateBytes y1 m1 d1) ::
      (strB "before:" ++ dateBytes y2 m2 d2) ::
      labels.map (fun l => strB "label:" ++ l) := by
    rw [fq_eq_joinSep]
    apply splitSep_joinSep (by simp)
    intro seg hseg
    rcases List.mem_cons.mp hseg with rfl | hseg2
    · exact afterClause_no_space y1 m1 d1
    · rcases List.mem_cons.mp hseg2 with rfl | hseg3
      · exact beforeClause_no_space y2 m2 d2
      · exact hmapn seg hseg3
  have husplit : splitSep 32 (get_unread_messages_query labels) =
      strB "is:unread" :: labels.map (fun l => strB "label:" ++ l) := by
    rw [uq_eq_joinSep]
    apply splitSep_joinSep (by simp)
    intro seg hseg
    rcases List.mem_cons.mp hseg with rfl | hseg2
    · intro hx
      have he : strB "is:unread" = [105, 115, 58, 117, 110, 114, 101, 97, 100] := rfl
      rw [he] at hx
      simp at hx
    · exact hmapn seg hseg2
  have hcnt_map : ∀ l ∈ labels,
      (labels.map (fun l => strB "label:" ++ l)).count (strB "label:" ++ l) = 1 := by
    intro l hl
    have hm := count_map_inj labelClause_injective labels l
    exact hm.trans (count_eq_one_of_nodup_mem hnd hl)
  refine ⟨hsplit, ?_, ?_, ?_, husplit, ?_⟩
  · rw [hsplit]
    rw [List.count_cons_self, List.count_cons_of_ne (afterClause_ne_beforeClause _ _ _ _ _ _)]
    rw [List.count_eq_zero.mpr]
    intro hmem
    rcases List.mem_map.mp hmem with ⟨l, _, hcl⟩
    exact labelClause_ne_afterClause l y1 m1 d1 hcl
  · rw [hsplit]
    rw [List.count_cons_of_ne (Ne.symm (afterClause_ne_beforeClause _ _ _ _ _ _)),
      List.count_cons_self]
    rw [List.count_eq_zero.mpr]
    intro hmem
    rcases List.mem_map.mp hmem with ⟨l, _, hcl⟩
    exact labelClause_ne_beforeClause l y2 m2 d2 hcl
  · intro l hl
    rw [hsplit]
    rw [List.count_cons_of_ne (labelClause_ne_afterClause l y1 m1 d1),
      List.count_cons_of_ne (labelClause_ne_beforeClause l y2 m2 d2)]
    exact hcnt_map l hl
  · intro l hl
    rw [husplit]
    rw [List.count_cons_of_ne (labelClause_ne_unread l)]
    exact hcnt_map l hl

/-- Witness for C8 at the concrete example: labels INBOX and IMPORTANT with
the January 2023 date range yield each clause exactly once, and the full
query renders with the fixed date encoding. -/
theorem query_clauses_witness :
    find_messages_by_date_range_query 2023 1 1 2023 1 31
      [strB "INBOX", strB "IMPORTANT"] =
      strB "after:2023/01/01 before:2023/01/31 label:INBOX label:IMPORTANT" ∧
    (splitSep 32 (find_messages_by_date_range_query 2023 1 1 2023 1 31
      [strB "INBOX", strB "IMPORTANT"])).count (strB "label:" ++ strB "INBOX") = 1 ∧
    (splitSep 32 (find_messages_by_date_range_query 2023 1 1 2023 1 31
      [strB "INBOX", strB "IMPORTANT"])).count (strB "label:" ++ strB "IMPORTANT") = 1 ∧
    (splitSep 32 (find_messages_by_date_range_query 2023 1 1 2023 1 31
      [strB "INBOX", strB "IMPORTANT"])).count
      (strB "after:" ++ dateBytes 2023 1 1) = 1 ∧
    (splitSep 32 (find_messages_by_date_range_query 2023 1 1 2023 1 31
      [strB "INBOX", strB "IMPORTANT"])).count
      (strB "before:" ++ dateBytes 2023 1 31) = 1 := by
  have h := query_clauses 2023 1 1 2023 1 31 [strB "INBOX", strB "IMPORTANT"]
    (by decide) (by decide)
  refine ⟨by decide, ?_, ?_, h.2.1, h.2.2.1⟩
  · exact h.2.2.2.1 (strB "INBOX") (by decide)
  · exact h.2.2.2.1 (strB "IMPORTANT") (by decide)

theorem noNL_append {a b : Bytes} (ha : 10 ∉ a) (hb : 10 ∉ b) : 10 ∉ a ++ b := by
  intro h
  rcases List.mem_append.mp h with h1 | h2
  · exact ha h1
  · exact hb h2

theorem bytesOk_append {a b : Bytes} (ha : bytesOk a) (hb : bytesOk b) :
    bytesOk (a ++ b) := by
  intro x hx
  rcases List.mem_append.mp hx with h1 | h2
  · exact ha x h1
  · exact hb x h2

theorem b64CharB_ok_fin : ∀ i : Fin 64, b64CharB i.val < 256 ∧ b64CharB i.val ≠ 10 := by
  decide

theorem b64CharB_ok (i : Nat) : b64CharB i < 256 ∧ b64CharB i ≠ 10 := by
  by_cases h : i < 64
  · exact b64CharB_ok_fin ⟨i, h⟩
  · have hlen : b64AlphaB.length = 64 := by decide
    have h0 : b64CharB i = 0 := by
      simp only [b64CharB]
      exact List.getD_eq_default _ _ (by omega)
    rw [h0]
    omega

theorem b64eB_ok : ∀ d : Bytes, bytesOk (b64eB d) ∧ 10 ∉ b64eB d
  | [] => by simp [b64eB, bytesOk]
  | [a] => by
    constructor
    · intro x hx
      simp only [b64eB, List.mem_cons] at hx
      rcases hx with rfl | rfl | rfl | rfl | h
      · exact (b64CharB_ok _).1
      · exact (b64CharB_ok _).1
      · omega
      · omega
      · simp at h
    · intro hx
      simp only [b64eB, List.mem_cons] at hx
      rcases hx with h | h | h | h | h
      · exact (b64CharB_ok _).2 h.symm
      · exact (b64CharB_ok _).2 h.symm
      · omega
      · omega
      · simp at h
  | [a, b] => by
    constructor
    · intro x hx
      simp only [b64eB, List.mem_cons] at hx
      rcases hx with rfl | rfl | rfl | rfl | h
      · exact (b64CharB_ok _).1
      · exact (b64CharB_ok _).1
      · exact (b64CharB_ok _).1
      · omega
      · simp at h
    · intro hx
      simp only [b64eB, List.mem_cons] at hx
      rcases hx with h | h | h | h | h
      · exact (b64CharB_ok _).2 h.symm
      · exact (b64CharB_ok _).2 h.symm
      · exact (b64CharB_ok _).2 h.symm
      · omega
      · simp at h
  | a :: b :: c :: rest => by
    have ih := b64eB_ok rest
    constructor
    · intro x hx
      simp only [b64eB, List.mem_cons] at hx
      rcases hx with rfl | rfl | rfl | rfl | h
      · exact (b64CharB_ok _).1
      · exact (b64CharB_ok _).1
      · exact (b64CharB_ok _).1
      · exact (b64CharB_ok _).1
      · exact ih.1 x h
    · intro hx
      simp only [b64eB, List.mem_cons] at hx
      rcases hx with h | h | h | h | h
      · exact (b64CharB_ok _).2 h.symm
      · exact (b64CharB_ok _).2 h.symm
      · exact (b64CharB_ok _).2 h.symm
      · exact (b64CharB_ok _).2 h.symm
      · exact ih.2 h

theorem parseMime_single (t fr su bo : Bytes)
    (hto : 10 ∉ t) (hfr : 10 ∉ fr) (hsu : 10 ∉ su) :
    parseMime (serializeMsg ⟨t, fr, su, bo, []⟩) = some ⟨t, fr, su, bo, []⟩ := by
  have hL : splitSep 10 (serializeMsg ⟨t, fr, su, bo, []⟩) =
      (strB "To: " ++ t) :: (strB "From: " ++ fr) :: (strB "Subject: " ++ su) ::
      strB "MIME-Version: 1.0" :: strB "Content-Type: text/plain" ::
      strB "Content-Transfer-Encoding: 7bit" :: [] :: splitSep 10 bo := by
    show splitSep 10 (joinSep 10 ((strB "To: " ++ t) :: (strB "From: " ++ fr) ::
      (strB "Subject: " ++ su) :: strB "MIME-Version: 1.0" ::
      strB "Content-Type: text/plain" :: strB "Content-Transfer-Encoding: 7bit" ::
      [] :: splitSep 10 bo)) = _
    apply splitSep_joinSep (by simp)
    intro seg hseg
    simp only [List.mem_cons] at hseg
    rcases hseg with rfl | rfl | rfl | rfl | rfl | rfl | rfl | hbody
    · exact noNL_append (by decide) hto
    · exact noNL_append (by decide) hfr
    · exact noNL_append (by decide) hsu
    · decide
    · decide
    · decide
    · simp
    · exact not_mem_of_mem_splitSep hbody
  simp only [parseMime, hL, stripPre_append, Option.some_bind]
  simp [joinSep_splitSep]

theorem lookupExt_cases : ∀ (tbl : List (Bytes × Bytes × Bytes)) (ext : Bytes),
    lookupExt tbl ext = (strB "application", strB "octet-stream") ∨
    ∃ e ∈ tbl, lookupExt tbl ext = e.2 := by
  intro tbl
  induction tbl with
  | nil => intro ext; exact Or.inl rfl
  | cons e rest ih =>
    intro ext
    rcases e with ⟨ex, ms⟩
    simp only [lookupExt]
    split
    · exact Or.inr ⟨(ex, ms), List.mem_cons_self _ _, rfl⟩
    · rcases ih ext with h | ⟨e2, he2, h⟩
      · exact Or.inl h
      · exact Or.inr ⟨e2, List.mem_cons_of_mem _ he2, h⟩

theorem guessType_ok (p : Bytes) :
    10 ∉ (guessType p).1 ∧ 10 ∉ (guessType p).2 ∧
    bytesOk (guessType p).1 ∧ bytesOk (guessType p).2 := by
  have htbl : ∀ e ∈ mimeTable,
      10 ∉ e.2.1 ∧ 10 ∉ e.2.2 ∧ bytesOk e.2.1 ∧ bytesOk e.2.2 := by decide
  have hdef : 10 ∉ (strB "application") ∧ 10 ∉ (strB "octet-stream") ∧
      bytesOk (strB "application") ∧ bytesOk (strB "octet-stream") := by decide
  simp only [guessType]
  split
  · rcases lookupExt_cases mimeTable
        (lowerB (((splitSep 46 p).getLast?).getD [])) with h | ⟨e, he, h⟩
    · rw [h]
      exact hdef
    · rw [h]
      exact htbl e he
  · exact hdef

theorem mem_basenameB {p : Bytes} {x : Nat} (h : x ∈ basenameB p) : x ∈ p := by
  simp only [basenameB] at h
  rcases hg : (splitSep 47 p).getLast? with _ | seg
  · rw [hg] at h
    simp at h
  · rw [hg] at h
    simp only [Option.getD_some] at h
    exact mem_of_mem_splitSep (List.mem_of_mem_getLast? hg) h

theorem multCtLine_ne_text (b : Bytes) :
    multCtLine b ≠ strB "Content-Type: text/plain" := by
  intro h
  have hlen := congrArg List.length h
  rw [multCtLine, multCtPre] at hlen
  simp only [List.length_append, List.length_cons, List.length_nil] at hlen
  have e1 : (strB "Content-Type: multipart/mixed; boundary=").length = 40 := rfl
  have e2 : (strB "Content-Type: text/plain").length = 24 := rfl
  omega

theorem delimLine_multB_length (bo : Bytes) (atts : List MimePart) :
    (delimLine (multB bo atts)).length = maxLenOf (multSegs bo atts).flatten + 3 := by
  have e2 : (strB "--").length = 2 := rfl
  simp only [delimLine, multB, chooseBoundary, List.length_append,
    List.length_replicate, e2]
  omega

theorem delim_not_mem_multSegs (bo : Bytes) (atts : List MimePart) :
    ∀ seg ∈ multSegs bo atts, delimLine (multB bo atts) ∉ seg := by
  intro seg hseg hmem
  have h1 := delimLine_multB_length bo atts
  have h2 : delimLine (multB bo atts) ∈ (multSegs bo atts).flatten :=
    List.mem_flatten.mpr ⟨seg, hseg, hmem⟩
  have h3 := le_maxLenOf h2
  omega

theorem multSegs_lines_ok (bo : Bytes) (atts : List MimePart)
    (hbo2 : bytesOk bo) (hatts : ∀ x ∈ atts, partOk x) :
    ∀ seg ∈ multSegs bo atts, ∀ line ∈ seg, 10 ∉ line ∧ bytesOk line := by
  intro seg hseg line hline
  simp only [multSegs, List.mem_cons] at hseg
  rcases hseg with rfl | hseg2
  · simp only [textPartLines, List.mem_cons] at hline
    rcases hline with rfl | rfl | rfl | hbody
    · exact ⟨by decide, by decide⟩
    · exact ⟨by decide, by decide⟩
    · exact ⟨by simp, by simp [bytesOk]⟩
    · exact ⟨not_mem_of_mem_splitSep hbody,
        fun x hx => hbo2 x (mem_of_mem_splitSep hbody hx)⟩
  · rcases List.mem_map.mp hseg2 with ⟨x, hx, rfl⟩
    obtain ⟨hm1, hm2, hm3, hm4, hm5, hm6, hm7⟩ := hatts x hx
    simp only [attPartLines, List.mem_cons, List.not_mem_nil, or_false] at hline
    rcases hline with rfl | rfl | rfl | rfl | rfl
    · refine ⟨noNL_append (noNL_append (noNL_append (by decide) hm1) (by decide)) hm2, ?_⟩
      exact bytesOk_append (bytesOk_append (bytesOk_append (by decide) hm4)
        (by intro z hz; simp at hz; omega)) hm5
    · exact ⟨by decide, by decide⟩
    · refine ⟨noNL_append (noNL_append (noNL_append (by decide) (by decide)) hm3)
        (by decide), ?_⟩
      exact bytesOk_append (bytesOk_append (bytesOk_append (by decide)
        (by intro z hz; simp at hz; omega)) hm6)
        (by intro z hz; simp at hz; omega)
    · exact ⟨by simp, by simp [bytesOk]⟩
    · exact ⟨(b64eB_ok x.data).2, (b64eB_ok x.data).1⟩

theorem listMapM_map {α β γ : Type} (f : β → Option γ) (g : α → β) (h : α → γ)
    (l : List α) (hfg : ∀ x ∈ l, f (g x) = some (h x)) :
    listMapM f (l.map g) = some (l.map h) := by
  induction l with
  | nil => rfl
  | cons x xs ih =>
    simp only [List.map_cons, listMapM, hfg x (List.mem_cons_self x xs),
      Option.some_bind, ih (fun y hy => hfg y (List.mem_cons_of_mem x hy)),
      Option.map_some']

theorem parseAttPart_attPartLines {a : MimePart} (ha : partOk a) :
    parseAttPart (attPartLines a) = some (a.filename, a.data) := by
  obtain ⟨hm1, hm2, hm3, hm4, hm5, hm6, hm7⟩ := ha
  have hassoc1 : strB "Content-Type: " ++ a.maintype ++ [47] ++ a.subtype =
      strB "Content-Type: " ++ (a.maintype ++ [47] ++ a.subtype) := by
    simp [List.append_assoc]
  have hct := stripPre_append (strB "Content-Type: ") (a.maintype ++ [47] ++ a.subtype)
  rw [← hassoc1] at hct
  have hassoc2 : strB "Content-Disposition: attachment; filename=" ++ [34] ++
      a.filename ++ [34] =
      (strB "Content-Disposition: attachment; filename=" ++ [34]) ++
      (a.filename ++ [34]) := by
    simp [List.append_assoc]
  have hdisp := stripPre_append
    (strB "Content-Disposition: attachment; filename=" ++ [34]) (a.filename ++ [34])
  rw [← hassoc2] at hdisp
  simp only [parseAttPart, attPartLines, hct, Option.some_bind, hdisp,
    getLast?_append_single, dropLast_append_single, b64_roundtrip a.data hm7]
  simp

theorem parseMime_multi (t fr su bo : Bytes) (a0 : MimePart) (as : List MimePart)
    (hto : 10 ∉ t) (hfr : 10 ∉ fr) (hsu : 10 ∉ su) (hbo2 : bytesOk bo)
    (hatts : ∀ x ∈ a0 :: as, partOk x) :
    parseMime (serializeMsg ⟨t, fr, su, bo, a0 :: as⟩) =
      some ⟨t, fr, su, bo, (a0 :: as).map (fun x => (x.filename, x.data))⟩ := by
  have hBnl : (10 : Nat) ∉ multB bo (a0 :: as) := by
    intro hmem
    simp only [multB, chooseBoundary] at hmem
    have := List.eq_of_mem_replicate hmem
    omega
  have hsegsOk := multSegs_lines_ok bo (a0 :: as) hbo2 hatts
  have hL : splitSep 10 (serializeMsg ⟨t, fr, su, bo, a0 :: as⟩) =
      (strB "To: " ++ t) :: (strB "From: " ++ fr) :: (strB "Subject: " ++ su) ::
      strB "MIME-Version: 1.0" :: multCtLine (multB bo (a0 :: as)) :: [] ::
      delimLine (multB bo (a0 :: as)) ::
      (joinSep (delimLine (multB bo (a0 :: as)))
        (textPartLines bo :: (a0 :: as).map attPartLines) ++
       [closeLine (multB bo (a0 :: as))]) := by
    show splitSep 10 (joinSep 10 ((strB "To: " ++ t) :: (strB "From: " ++ fr) ::
      (strB "Subject: " ++ su) :: strB "MIME-Version: 1.0" ::
      multCtLine (multB bo (a0 :: as)) :: [] :: delimLine (multB bo (a0 :: as)) ::
      (joinSep (delimLine (multB bo (a0 :: as)))
        (textPartLines bo :: (a0 :: as).map attPartLines) ++
       [closeLine (multB bo (a0 :: as))]))) = _
    apply splitSep_joinSep (by simp)
    intro seg hseg
    simp only [List.mem_cons] at hseg
    rcases hseg with rfl | rfl | rfl | rfl | rfl | rfl | rfl | hrest
    · exact noNL_append (by decide) hto
    · exact noNL_append (by decide) hfr
    · exact noNL_append (by decide) hsu
    · decide
    · exact noNL_append (noNL_append (by decide) hBnl) (by decide)
    · simp
    · exact noNL_append (by decide) hBnl
    · rcases List.mem_append.mp hrest with hj | hc
      · rcases mem_joinSep hj with rfl | ⟨block, hblock, hmem⟩
        · exact noNL_append (by decide) hBnl
        · exact (hsegsOk block hblock seg hmem).1
      · rcases List.mem_singleton.mp hc with rfl
        exact noNL_append (noNL_append (by decide) hBnl) (by decide)
  have hB34 : stripPre multCtPre (multCtLine (multB bo (a0 :: as))) =
      some (multB bo (a0 :: as) ++ [34]) := by
    rw [multCtLine, List.append_assoc]
    exact stripPre_append _ _
  have hne := multCtLine_ne_text (multB bo (a0 :: as))
  have hsplitInner : splitSep (delimLine (multB bo (a0 :: as)))
      (joinSep (delimLine (multB bo (a0 :: as)))
        (textPartLines bo :: (a0 :: as).map attPartLines)) =
      textPartLines bo :: (a0 :: as).map attPartLines :=
    splitSep_joinSep (by simp) (delim_not_mem_multSegs bo (a0 :: as))
  have htext : parseTextPart (textPartLines bo) = some bo := by
    simp [parseTextPart, textPartLines, joinSep_splitSep]
  have hattsM : listMapM parseAttPart ((a0 :: as).map attPartLines) =
      some ((a0 :: as).map (fun x => (x.filename, x.data))) :=
    listMapM_map _ _ _ _ (fun x hx => parseAttPart_attPartLines (hatts x hx))
  have hsplitInner2 : splitSep (delimLine (multB bo (a0 :: as)))
      (joinSep (delimLine (multB bo (a0 :: as)))
        (textPartLines bo :: attPartLines a0 :: as.map attPartLines)) =
      textPartLines bo :: attPartLines a0 :: as.map attPartLines := by
    simpa using hsplitInner
  have hattsM2 : listMapM parseAttPart (attPartLines a0 :: as.map attPartLines) =
      some ((a0.filename, a0.data) :: as.map (fun x => (x.filename, x.data))) := by
    simpa using hattsM
  simp only [parseMime, hL, stripPre_append, Option.some_bind]
  simp [hne, hB34, getLast?_append_single, dropLast_append_single, hsplitInner2,
    htext, hattsM2]

theorem serializeMsg_ok (t fr su bo : Bytes) (atts : List MimePart)
    (hto2 : bytesOk t) (hfr2 : bytesOk fr) (hsu2 : bytesOk su) (hbo2 : bytesOk bo)
    (hatts : ∀ x ∈ atts, partOk x) :
    bytesOk (serializeMsg ⟨t, fr, su, bo, atts⟩) := by
  have hlines : ∀ line ∈ msgLines ⟨t, fr, su, bo, atts⟩, bytesOk line := by
    rcases atts with _ | ⟨a0, as⟩
    · intro line hline
      have h2 : line ∈ (strB "To: " ++ t) :: (strB "From: " ++ fr) ::
          (strB "Subject: " ++ su) :: strB "MIME-Version: 1.0" ::
          strB "Content-Type: text/plain" :: strB "Content-Transfer-Encoding: 7bit" ::
          ([] : Bytes) :: splitSep 10 bo := hline
      simp only [List.mem_cons] at h2
      rcases h2 with rfl | rfl | rfl | rfl | rfl | rfl | rfl | hbody
      · exact bytesOk_append (by decide) hto2
      · exact bytesOk_append (by decide) hfr2
      · exact bytesOk_append (by decide) hsu2
      · decide
      · decide
      · decide
      · intro z hz
        simp at hz
      · exact fun x hx => hbo2 x (mem_of_mem_splitSep hbody hx)
    · have hBok : bytesOk (multB bo (a0 :: as)) := by
        intro x hx
        simp only [multB, chooseBoundary] at hx
        have := List.eq_of_mem_replicate hx
        omega
      have h34 : bytesOk [34] := by
        intro z hz
        simp at hz
        omega
      have hsegsOk := multSegs_lines_ok bo (a0 :: as) hbo2 hatts
      intro line hline
      have h2 : line ∈ (strB "To: " ++ t) :: (strB "From: " ++ fr) ::
          (strB "Subject: " ++ su) :: strB "MIME-Version: 1.0" ::
          multCtLine (multB bo (a0 :: as)) :: ([] : Bytes) ::
          delimLine (multB bo (a0 :: as)) ::
          (joinSep (delimLine (multB bo (a0 :: as)))
            (textPartLines bo :: (a0 :: as).map attPartLines) ++
           [closeLine (multB bo (a0 :: as))]) := hline
      simp only [List.mem_cons] at h2
      rcases h2 with rfl | rfl | rfl | rfl | rfl | rfl | rfl | hrest
      · exact bytesOk_append (by decide) hto2
      · exact bytesOk_append (by decide) hfr2
      · exact bytesOk_append (by decide) hsu2
      · decide
      · exact bytesOk_append (bytesOk_append (by decide) hBok) h34
      · intro z hz
        simp at hz
      · exact bytesOk_append (by decide) hBok
      · rcases List.mem_append.mp hrest with hj | hc
        · rcases mem_joinSep hj with rfl | ⟨block, hblock, hmem⟩
          · exact bytesOk_append (by decide) hBok
          · exact (hsegsOk block hblock line hmem).2
        · rcases List.mem_singleton.mp hc with rfl
          exact bytesOk_append (bytesOk_append (by decide) hBok) (by decide)
  intro x hx
  have hx2 : x ∈ joinSep 10 (msgLines ⟨t, fr, su, bo, atts⟩) := hx
  rcases mem_joinSep hx2 with rfl | ⟨line, hline, hxl⟩
  · omega
  · exact hlines line hline x hxl

/-- C2: decoding the encoded artifact (reversing the URL-safe base64 outer
transform and re-parsing the MIME structure) reconstructs the To/From/Subject
headers, the body text, and byte-identical attachment payloads with their
filenames — one attachment per readable path, in order — for both
`create_message_with_attachment` (0 to N attachments) and `create_message`. -/
theorem encode_decode_roundtrip
    (fs : Bytes → Option Bytes) (t f s b : Bytes) (paths : List Bytes)
    (hto : 10 ∉ t) (hfr : 10 ∉ f) (hsu : 10 ∉ s)
    (hto2 : bytesOk t) (hfr2 : bytesOk f) (hsu2 : bytesOk s) (hbo2 : bytesOk b)
    (hp : ∀ p ∈ paths, 10 ∉ p ∧ bytesOk p)
    (hfs : ∀ p ∈ paths, bytesOk ((fs p).getD [])) :
    Option.bind (create_message_with_attachment fs (some t) (some f) (some s) (some b)
        (Sum.inr paths)).1 decodeArtifact =
      some ⟨t, f, s, b,
        paths.filterMap (fun p => (fs p).map (fun d => (basenameB p, d)))⟩ ∧
    Option.bind (create_message (some t) (some f) (some s) (some b)) decodeArtifact =
      some ⟨t, f, s, b, []⟩ := by
  have hattsOk : ∀ x ∈ (resolveAttachments fs paths).1, partOk x := by
    intro x hx
    rw [(resolveAttachments_spec fs paths).1] at hx
    rcases List.mem_filterMap.mp hx with ⟨p, hpmem, hmap⟩
    rcases hd : fs p with _ | d
    · rw [hd] at hmap
      simp at hmap
    · rw [hd] at hmap
      simp only [Option.map_some'] at hmap
      rcases Option.some.inj hmap with rfl
      obtain ⟨hpn, hpb⟩ := hp p hpmem
      have hdata : bytesOk d := by
        have hh := hfs p hpmem
        rw [hd] at hh
        simpa using hh
      have hg := guessType_ok p
      exact ⟨hg.1, hg.2.1, fun hmem => hpn (mem_basenameB hmem),
        hg.2.2.1, hg.2.2.2, fun y hy => hpb y (mem_basenameB hy), hdata⟩
  have hmapEq : ((resolveAttachments fs paths).1).map (fun x => (x.filename, x.data)) =
      paths.filterMap (fun p => (fs p).map (fun d => (basenameB p, d))) := by
    rw [(resolveAttachments_spec fs paths).1, List.map_filterMap]
    congr 1
    funext p
    rcases hd : fs p with _ | d <;> simp [hd]
  constructor
  · show Option.bind (some (b64eB (serializeMsg
      ⟨t, f, s, b, (resolveAttachments fs paths).1⟩))) decodeArtifact = _
    rcases hA : (resolveAttachments fs paths).1 with _ | ⟨a0, as⟩
    · rw [hA] at hmapEq
      simp only [List.map_nil] at hmapEq
      simp only [Option.some_bind, decodeArtifact]
      rw [b64_roundtrip _ (serializeMsg_ok t f s b [] hto2 hfr2 hsu2 hbo2 (by simp))]
      simp only [Option.some_bind]
      rw [parseMime_single t f s b hto hfr hsu, ← hmapEq]
    · rw [hA] at hattsOk hmapEq
      simp only [Option.some_bind, decodeArtifact]
      rw [b64_roundtrip _ (serializeMsg_ok t f s b (a0 :: as) hto2 hfr2 hsu2 hbo2 hattsOk)]
      simp only [Option.some_bind]
      rw [parseMime_multi t f s b a0 as hto hfr hsu hbo2 hattsOk, ← hmapEq]
  · simp only [create_message, Option.some_bind, decodeArtifact]
    rw [b64_roundtrip _ (serializeMsg_ok t f s b [] hto2 hfr2 hsu2 hbo2 (by simp))]
    simp only [Option.some_bind]
    exact parseMime_single t f s b hto hfr hsu

/-- Witness for C2 at a concrete input: a message with one readable and one
missing attachment path decodes back to its headers, body, and the single
byte-identical attachment. -/
theorem encode_decode_roundtrip_witness :
    Option.bind (create_message_with_attachment
        (fun p => if p = strB "docs/a.txt" then some (strB "hi there") else none)
        (some (strB "t@x.com")) (some (strB "f@x.com")) (some (strB "Subj"))
        (some (strB "line1\nline2"))
        (Sum.inr [strB "docs/a.txt", strB "missing.bin"])).1 decodeArtifact =
      some ⟨strB "t@x.com", strB "f@x.com", strB "Subj", strB "line1\nline2",
        [(strB "a.txt", strB "hi there")]⟩ := by
  have h := encode_decode_roundtrip
    (fun p => if p = strB "docs/a.txt" then some (strB "hi there") else none)
    (strB "t@x.com") (strB "f@x.com") (strB "Subj") (strB "line1\nline2")
    [strB "docs/a.txt", strB "missing.bin"]
    (by decide) (by decide) (by decide) (by decide) (by decide) (by decide)
    (by decide) (by decide) (by decide)
  exact h.1.trans (by decide)

/-- C3 counterexample: at a concrete input the raw value produced by
`create_message` is not the serialized MIME message base64-encoded twice —
the serialized message is wrapped only once in the text-safe transform. -/
theorem raw_not_double_encoded :
    create_message (some []) (some []) (some []) (some []) ≠
      some (b64eB (b64eB (serializeMsg ⟨[], [], [], [], []⟩))) := by
  decide

/-- C3 (amended): the final raw value is the serialized MIME message wrapped
exactly once in the URL-safe base64 transform, for both `create_message` and
`create_message_with_attachment`; one application of the reverse transform
recovers the serialized MIME message exactly.  (Attachment payloads inside
the serialized message are themselves base64-encoded, so attachment bytes
cross the boundary transformed twice, but the message as a whole only once.) -/
theorem raw_single_encoding
    (fs : Bytes → Option Bytes) (t f s b : Bytes) (paths : List Bytes)
    (hto2 : bytesOk t) (hfr2 : bytesOk f) (hsu2 : bytesOk s) (hbo2 : bytesOk b)
    (hp : ∀ p ∈ paths, 10 ∉ p ∧ bytesOk p)
    (hfs : ∀ p ∈ paths, bytesOk ((fs p).getD [])) :
    create_message (some t) (some f) (some s) (some b) =
      some (b64eB (serializeMsg ⟨t, f, s, b, []⟩)) ∧
    Option.bind (create_message (some t) (some f) (some s) (some b)) b64dB =
      some (serializeMsg ⟨t, f, s, b, []⟩) ∧
    (create_message_with_attachment fs (some t) (some f) (some s) (some b)
        (Sum.inr paths)).1 =
      some (b64eB (serializeMsg ⟨t, f, s, b, (resolveAttachments fs paths).1⟩)) ∧
    Option.bind (create_message_with_attachment fs (some t) (some f) (some s) (some b)
        (Sum.inr paths)).1 b64dB =
      some (serializeMsg ⟨t, f, s, b, (resolveAttachments fs paths).1⟩) := by
  have hattsOk : ∀ x ∈ (resolveAttachments fs paths).1, partOk x := by
    intro x hx
    rw [(resolveAttachments_spec fs paths).1] at hx
    rcases List.mem_filterMap.mp hx with ⟨p, hpmem, hmap⟩
    rcases hd : fs p with _ | d
    · rw [hd] at hmap
      simp at hmap
    · rw [hd] at hmap
      simp only [Option.map_some'] at hmap
      rcases Option.some.inj hmap with rfl
      obtain ⟨hpn, hpb⟩ := hp p hpmem
      have hdata : bytesOk d := by
        have hh := hfs p hpmem
        rw [hd] at hh
        simpa using hh
      have hg := guessType_ok p
      exact ⟨hg.1, hg.2.1, fun hmem => hpn (mem_basenameB hmem),
        hg.2.2.1, hg.2.2.2, fun y hy => hpb y (mem_basenameB hy), hdata⟩
  refine ⟨rfl, ?_, rfl, ?_⟩
  · simp only [create_message, Option.some_bind]
    exact b64_roundtrip _ (serializeMsg_ok t f s b [] hto2 hfr2 hsu2 hbo2 (by simp))
  · show Option.bind (some (b64eB (serializeMsg
      ⟨t, f, s, b, (resolveAttachments fs paths).1⟩))) b64dB = _
    simp only [Option.some_bind]
    exact b64_roundtrip _
      (serializeMsg_ok t f s b (resolveAttachments fs paths).1 hto2 hfr2 hsu2 hbo2 hattsOk)

/-- Witness for the amended C3 at a concrete input: one reverse base64
application recovers the serialized message. -/
theorem raw_single_encoding_witness :
    Option.bind (create_message (some (strB "t@x.com")) (some (strB "f@x.com"))
        (some (strB "S")) (some (strB "hello"))) b64dB =
      some (serializeMsg ⟨strB "t@x.com", strB "f@x.com", strB "S", strB "hello", []⟩) :=
  (raw_single_encoding (fun _ => none) (strB "t@x.com") (strB "f@x.com") (strB "S")
    (strB "hello") [] (by decide) (by decide) (by decide) (by decide)
    (by decide) (by decide)).2.1
